import Mathlib

/-!
Verification of the iepy core model (`iepy/models.py`): the double-ended
bisection `interval_offsets`, the chunk builder `TextChunk.build`, and the
preprocess-stage state machine on `IEDocument`
(`set_preprocess_result` / `get_preprocess_result` / `was_preprocess_done`).

The Python source is embedded shallowly:

* Python exceptions become an explicit error type `PyErr`; fallible code
  returns `Except PyErr _` (plus, for the document mutator, the document
  state at the moment of the raise, so that failure atomicity is statable).
* Python `while` loops become well-founded recursive functions; the local
  variable `mid`, which Python leaves unbound when the first loop body never
  runs, is threaded as an `Option Nat` and reading it while `none` is the
  embedded `UnboundLocalError`.
* Python list indexing `a[mid]` becomes `List.get?` with an explicit
  `IndexError` on out-of-range access; Python slices `a[i:j]` (with their
  clamping and negative-index semantics) become `pySlice`.
* Python-2 heterogeneous values (the segmentation result may mix ints with
  other objects) become `PyObj`; Python-2's total order that sorts numbers
  before strings becomes `pyLe`, and `sorted(result)` becomes
  `List.mergeSort pyLe`.
* `datetime.now()` is impure, so the current time is passed to
  `set_preprocess_result` as an explicit `now : Nat` argument; the
  `preprocess_metadata` dict becomes a map `String → Option Nat` from stage
  name to recorded timestamp.
-/

namespace IepySpec

/-- Errors raised by the embedded Python code.  The two `ValueError`s of
`interval_offsets` keep their exact source messages; the spec calls them
InvalidIndex ("lo must not be negative") and InvalidRange
("This function requires xl <= xr "). -/
inductive PyErr where
  | valueError (msg : String)
  | indexError
  | unboundLocalError
  | keyError
  | invalidPreprocessSteps
deriving DecidableEq, Repr

/-- `a[i]` for a Python list and a non-negative index: out-of-range access
raises `IndexError`. -/
def pyGet (a : List α) (i : Nat) : Except PyErr α :=
  match a.get? i with
  | some v => .ok v
  | none => .error .indexError

/-- The first `while` loop of `interval_offsets` ("Reduce range for both left
and right endpoints").  Returns the final `lo`, `hi`, the last value assigned
to `mid` (`none` when the body never ran, i.e. Python's `mid` is unbound), and
whether the loop exited through `break`. -/
def bisectReduce (a : List α) (key : α → Int) (xl xr : Int) (lo hi : Nat)
    (lastMid : Option Nat) : Except PyErr (Nat × Nat × Option Nat × Bool) :=
  if h : lo < hi then
    let mid := (lo + hi) / 2
    match pyGet a mid with
    | .error e => .error e
    | .ok av =>
      if xl ≤ key av ∧ xr ≤ key av then
        bisectReduce a key xl xr lo mid (some mid)
      else if key av < xl ∧ key av < xr then
        bisectReduce a key xl xr (mid + 1) hi (some mid)
      else
        .ok (lo, hi, some mid, true)
  else
    .ok (lo, hi, lastMid, false)
termination_by hi - lo
decreasing_by
  · simp_wf
    omega
  · simp_wf
    omega

/-- The second `while` loop of `interval_offsets` ("Find left bisection
point"): a lower-bound search for `xl` on `[llo, lhi)`. -/
def bisectLeft (a : List α) (key : α → Int) (xl : Int) (llo lhi : Nat) :
    Except PyErr Nat :=
  if h : llo < lhi then
    let mid := (llo + lhi) / 2
    match pyGet a mid with
    | .error e => .error e
    | .ok av =>
      if key av < xl then
        bisectLeft a key xl (mid + 1) lhi
      else
        bisectLeft a key xl llo mid
  else
    .ok llo
termination_by lhi - llo
decreasing_by
  · simp_wf
    omega
  · simp_wf
    omega

/-- The third `while` loop of `interval_offsets` ("Find right bisection
point"): a lower-bound search for `xr` on `[rlo, rhi)`. -/
def bisectRight (a : List α) (key : α → Int) (xr : Int) (rlo rhi : Nat) :
    Except PyErr Nat :=
  if h : rlo < rhi then
    let mid := (rlo + rhi) / 2
    match pyGet a mid with
    | .error e => .error e
    | .ok av =>
      if xr ≤ key av then
        bisectRight a key xr rlo mid
      else
        bisectRight a key xr (mid + 1) rhi
  else
    .ok rlo
termination_by rhi - rlo
decreasing_by
  · simp_wf
    omega
  · simp_wf
    omega

/-- `interval_offsets(a, xl, xr, lo=0, hi=None, key=None)` from
`iepy/models.py`.  `hi = none` embeds the default `hi = len(a)`; the `key`
function is explicit (Python's default `key=None` is the identity, see
`find_bounds`).  `lo` and `hi` are Python ints, hence `Int`-valued; the first
loop runs only when `lo < hi` (otherwise the later read of `mid` raises
`UnboundLocalError`, exactly as in Python when the loop body never executed;
the case `lo = hi` was already returned before the loop). -/
def interval_offsets (a : List α) (xl xr : Int) (lo : Int) (hi : Option Int)
    (key : α → Int) : Except PyErr (Nat × Nat) :=
  let hiv : Int := hi.getD (a.length : Int)
  if lo < 0 then .error (.valueError "lo must not be negative")
  else if xl > xr then .error (.valueError "This function requires xl <= xr ")
  else if lo = hiv then .ok (lo.toNat, hiv.toNat)
  else if lo < hiv then
    match bisectReduce a key xl xr lo.toNat hiv.toNat none with
    | .error e => .error e
    | .ok (_, _, none, _) => .error .unboundLocalError
    | .ok (lo', hi', some mid, _) =>
      match bisectLeft a key xl lo' mid with
      | .error e => .error e
      | .ok llo =>
        match bisectRight a key xr mid hi' with
        | .error e => .error e
        | .ok rlo => .ok (llo, rlo)
  else .error .unboundLocalError

/-- The spec's name `find_bounds(S, xl, xr)` for `interval_offsets` with all
defaults: `lo = 0`, `hi = len(S)`, identity key. -/
def find_bounds (a : List Int) (xl xr : Int) : Except PyErr (Nat × Nat) :=
  interval_offsets a xl xr 0 none (fun x => x)

/-! ### Python slice semantics -/

/-- Clamp one endpoint of a Python slice `l[i:j]` to `[0, n]`, with Python's
negative-index wrap-around. -/
def pySliceIdx (n : Nat) (i : Int) : Nat :=
  if i < 0 then (max 0 ((n : Int) + i)).toNat else min i.toNat n

/-- Python `l[i:j]` (never raises; clamps out-of-range endpoints). -/
def pySlice (l : List β) (i j : Int) : List β :=
  (l.take (pySliceIdx l.length j)).drop (pySliceIdx l.length i)

/-! ### The data model of `iepy/models.py` -/

/-- A Python-2 value as far as the segmentation validator can observe it:
an `int` or some other object (here: a string).  `isinstance(x, int)` is
`PyObj.isInt`. -/
inductive PyObj where
  | int (n : Int)
  | str (s : String)
deriving DecidableEq, Repr

def PyObj.isInt : PyObj → Bool
  | .int _ => true
  | .str _ => false

/-- Python 2's total order on mixed values: numbers sort before strings
(comparison by type name), ints by value, strings lexicographically. -/
def pyLe : PyObj → PyObj → Bool
  | .int m, .int n => m ≤ n
  | .int _, .str _ => true
  | .str _, .int _ => false
  | .str s, .str t => decide (s ≤ t)

/-- `Entity`: key, canonical form and kind (the occurrence stores a reference
to it; the document fields the chunk builder copies out of it). -/
structure Entity where
  key : String
  canonical_form : String
  kind : String
deriving DecidableEq, Repr

/-- `EntityOccurrence`: a mention of an entity at a token offset, with an
optional alias. -/
structure EntityOccurrence where
  entity : Entity
  offset : Int
  «alias» : Option String
deriving DecidableEq, Repr

/-- `EntityInChunk`: the chunk-local projection of an occurrence. -/
structure EntityInChunk where
  key : String
  canonical_form : String
  kind : String
  offset : Int
  «alias» : Option String
deriving DecidableEq, Repr

/-- `PreProcessSteps` enumeration. -/
inductive PreProcessSteps where
  | tokenization
  | segmentation
  | tagging
  | nerc
deriving DecidableEq, Repr

/-- Python's `step.name` for the enumeration. -/
def PreProcessSteps.name : PreProcessSteps → String
  | .tokenization => "tokenization"
  | .segmentation => "segmentation"
  | .tagging => "tagging"
  | .nerc => "nerc"

/-- `IEDocument`: the fields of the document model that the embedded code
touches.  `preprocess_metadata` maps a stage name to the recorded completion
timestamp (`datetime.now()` modelled as a `Nat`). -/
structure IEDocument where
  tokens : List PyObj
  offsets : List Int
  postags : List PyObj
  sentences : List PyObj
  entities : List EntityOccurrence
  preprocess_metadata : String → Option Nat

/-- `TextChunk`: the chunk value object `TextChunk.build` produces. -/
structure TextChunk where
  document : IEDocument
  text : String
  offset : Int
  tokens : List PyObj
  postags : List PyObj
  entities : List EntityInChunk

/-- The body of the `for o in document.entities[l:r]` loop of
`TextChunk.build`: the chunk-local `EntityInChunk` built from one
occurrence. -/
def projectOccurrence (token_offset : Int) (o : EntityOccurrence) :
    EntityInChunk :=
  { key := o.entity.key
    canonical_form := o.entity.canonical_form
    kind := o.entity.kind
    offset := o.offset - token_offset
    «alias» := o.«alias» }

/-- `TextChunk.build(document, token_offset, token_offset_end, text)`:
slices tokens and postags, locates the occurrences whose offsets fall in
`[token_offset, token_offset_end)` via `interval_offsets` (with `lo = 0`,
`hi = None`, `key = occ.offset`), and projects them to chunk-local offsets.
A `ValueError` from `interval_offsets` propagates and no chunk is produced. -/
def TextChunk.build (document : IEDocument) (token_offset token_offset_end : Int)
    (text : String) : Except PyErr TextChunk :=
  match interval_offsets document.entities token_offset token_offset_end 0 none
      (fun occ => occ.offset) with
  | .error e => .error e
  | .ok (l, r) =>
    .ok { document := document
          text := text
          offset := token_offset
          tokens := pySlice document.tokens token_offset token_offset_end
          postags := pySlice document.postags token_offset token_offset_end
          entities := (pySlice document.entities (l : Int) (r : Int)).map
            (projectOccurrence token_offset) }

/-! ### The preprocess-stage state machine -/

/-- The document fields `preprocess_fields_mapping` can name. -/
inductive DocField where
  | tokens
  | sentences
  | postags
deriving DecidableEq, Repr

/-- `IEDocument.preprocess_fields_mapping`: the dict from stage to field.
`nerc` has no entry, so looking it up is a `KeyError` (see `storeResult`). -/
def preprocess_fields_mapping : PreProcessSteps → Option DocField
  | .tokenization => some .tokens
  | .segmentation => some .sentences
  | .tagging => some .postags
  | .nerc => none

/-- `getattr(self, field_name)`. -/
def getattrField (doc : IEDocument) : DocField → List PyObj
  | .tokens => doc.tokens
  | .sentences => doc.sentences
  | .postags => doc.postags

/-- `setattr(self, field_name, result)`. -/
def setattrField (doc : IEDocument) : DocField → List PyObj → IEDocument
  | .tokens, v => { doc with tokens := v }
  | .sentences, v => { doc with sentences := v }
  | .postags, v => { doc with postags := v }

/-- `IEDocument.was_preprocess_done(step)`: membership of the stage name in
`preprocess_metadata`. -/
def was_preprocess_done (doc : IEDocument) (step : PreProcessSteps) : Bool :=
  (doc.preprocess_metadata step.name).isSome

/-- The tail of `set_preprocess_result` after validation:
`field_name = self.preprocess_fields_mapping[step]` (a `KeyError` for `nerc`),
`setattr(self, field_name, result)`, then record the completion timestamp.
Returns the Python result together with the document state after the call. -/
def storeResult (doc : IEDocument) (s : PreProcessSteps) (result : List PyObj)
    (now : Nat) : (Except PyErr IEDocument) × IEDocument :=
  match preprocess_fields_mapping s with
  | none => (.error .keyError, doc)
  | some f =>
    let d1 := setattrField doc f result
    let d2 := { d1 with preprocess_metadata :=
      fun k => if k = s.name then some now else d1.preprocess_metadata k }
    (.ok d2, d2)

/-- `IEDocument.set_preprocess_result(step, result)`.  The first component is
the Python outcome (`.ok` with the returned `self`, or the raised exception);
the second component is the document state when the call ends, raise or not,
so that failure atomicity is statable.  `step = none` embeds an argument that
is not a `PreProcessSteps` instance. -/
def set_preprocess_result (doc : IEDocument) (step : Option PreProcessSteps)
    (result : List PyObj) (now : Nat) :
    (Except PyErr IEDocument) × IEDocument :=
  match step with
  | none => (.error .invalidPreprocessSteps, doc)
  | some s =>
    if s = PreProcessSteps.segmentation then
      if result.filter (fun x => ! x.isInt) ≠ [] then
        (.error (.valueError "Segmentation result shall only contain ints"), doc)
      else if result.mergeSort pyLe ≠ result then
        (.error (.valueError "Segmentation result shall be ordered."), doc)
      else if result.dedup.length < result.length then
        (.error (.valueError "Segmentation result shall not contain duplicates."), doc)
      else
        match result with
        | [] => (.error .indexError, doc)
        | h0 :: rest =>
          if h0 ≠ PyObj.int 0 ∨
              (h0 :: rest).getLast (List.cons_ne_nil h0 rest) ≠
                PyObj.int (doc.tokens.length : Int) then
            (.error (.valueError "Segmentation result must be offsets of tokens."), doc)
          else storeResult doc s result now
    else if s = PreProcessSteps.tagging then
      if result.length ≠ doc.tokens.length then
        (.error (.valueError "Tagging result must have same cardinality than tokens"), doc)
      else storeResult doc s result now
    else storeResult doc s result now

/-- `IEDocument.get_preprocess_result(step)`: `none` is Python's `None`
("never set"); the stored field's value otherwise. -/
def get_preprocess_result (doc : IEDocument) (step : PreProcessSteps) :
    Except PyErr (Option (List PyObj)) :=
  if was_preprocess_done doc step then
    match preprocess_fields_mapping step with
    | none => .error .keyError
    | some f => .ok (some (getattrField doc f))
  else .ok none

/-- The four segmentation validation rules, violated: some element is not an
integer; the sequence is not sorted ascending (Python 2's order `pyLe`, which
on all-int results is integer order); duplicate values; or the endpoints are
not `0` and the current token-sequence length. -/
def SegViolation (doc : IEDocument) (result : List PyObj) : Prop :=
  (∃ x ∈ result, x.isInt = false) ∨
  ¬ List.Pairwise (fun a b => pyLe a b = true) result ∨
  ¬ result.Nodup ∨
  result.head? ≠ some (PyObj.int 0) ∨
  result.getLast? ≠ some (PyObj.int (doc.tokens.length : Int))

/-! ### Concrete documents used as evaluation inputs -/

/-- An empty completion mapping. -/
def emptyMetadata : String → Option Nat := fun _ => none

/-- A one-token document with no occurrences. -/
def docOneToken : IEDocument :=
  { tokens := [.str "a"]
    offsets := [0]
    postags := [.str "DT"]
    sentences := [.int 0, .int 1]
    entities := []
    preprocess_metadata := emptyMetadata }

/-- A three-token document with no occurrences. -/
def docThreeTokens : IEDocument :=
  { tokens := [.str "w1", .str "w2", .str "w3"]
    offsets := [0, 3, 6]
    postags := [.str "DT", .str "NN", .str "VB"]
    sentences := [.int 0, .int 3]
    entities := []
    preprocess_metadata := emptyMetadata }

def entAlpha : Entity :=
  { key := "E1", canonical_form := "Alpha", kind := "person" }

def entBeta : Entity :=
  { key := "E2", canonical_form := "Beta", kind := "location" }

/-- A four-token document with three occurrences sorted by offset. -/
def docChunk : IEDocument :=
  { tokens := [.str "a", .str "b", .str "c", .str "d"]
    offsets := [0, 2, 4, 6]
    postags := [.str "DT", .str "NN", .str "VB", .str "NN"]
    sentences := [.int 0, .int 4]
    entities := [{ entity := entAlpha, offset := 0, «alias» := none },
                 { entity := entBeta, offset := 1, «alias» := some "B" },
                 { entity := entAlpha, offset := 3, «alias» := none }]
    preprocess_metadata := emptyMetadata }

/-- A document whose completion mapping claims the `nerc` stage was done
(such state can only come from the external store: this module itself can
never record it). -/
def docNercDone : IEDocument :=
  { tokens := [.str "a"]
    offsets := [0]
    postags := []
    sentences := []
    entities := []
    preprocess_metadata := fun k => if k = "nerc" then some 1 else none }

/-! ### Specification predicates for the range query -/

/-- Every element of `a` with index in `[i, j)` has a key satisfying `P`. -/
def AllKey (a : List α) (key : α → Int) (P : Int → Prop) (i j : Nat) : Prop :=
  ∀ t u, i ≤ t → t < j → a.get? t = some u → P (key u)

/-- The slice `a[lo:hi]` is sorted ascending by `key`. -/
def SortedByKey (a : List α) (key : α → Int) (lo hi : Nat) : Prop :=
  ∀ i j u v, lo ≤ i → i ≤ j → j < hi → a.get? i = some u → a.get? j = some v →
    key u ≤ key v

/-- Invariant tying the last assigned `mid` to the meeting point `x` of the
first loop when it terminates without `break`: either the final step shrank
`hi` down to `mid` (so `mid = x`), or it moved `lo` up to `mid + 1 = x` after
seeing a key `< xr` at `mid`. -/
def MidOk (a : List α) (key : α → Int) (xr : Int) (m : Option Nat) (x : Nat) :
    Prop :=
  ∃ mm, m = some mm ∧
    (mm = x ∨ (mm + 1 = x ∧ ∀ u, a.get? mm = some u → key u < xr))

theorem AllKey_of_ge (a : List α) (key : α → Int) (P : Int → Prop) (i j : Nat)
    (h : j ≤ i) : AllKey a key P i j := by
  intro t u h1 h2 _
  omega

theorem AllKey_append (a : List α) (key : α → Int) (P : Int → Prop)
    (i j k : Nat) (h1 : AllKey a key P i j) (h2 : AllKey a key P j k) :
    AllKey a key P i k := by
  intro t u ht1 ht2 hu
  by_cases htj : t < j
  · exact h1 t u ht1 htj hu
  · exact h2 t u (by omega) ht2 hu

/-! ### Unfolding lemmas for the three loops -/

theorem bisectReduce_stop (a : List α) (key : α → Int) (xl xr : Int)
    (lo hi : Nat) (lastMid : Option Nat) (h : ¬ lo < hi) :
    bisectReduce a key xl xr lo hi lastMid = .ok (lo, hi, lastMid, false) := by
  rw [bisectReduce]
  exact dif_neg h

theorem bisectReduce_step (a : List α) (key : α → Int) (xl xr : Int)
    (lo hi : Nat) (lastMid : Option Nat) (h : lo < hi) (u : α)
    (hu : a.get? ((lo + hi) / 2) = some u) :
    bisectReduce a key xl xr lo hi lastMid =
      if xl ≤ key u ∧ xr ≤ key u then
        bisectReduce a key xl xr lo ((lo + hi) / 2) (some ((lo + hi) / 2))
      else if key u < xl ∧ key u < xr then
        bisectReduce a key xl xr ((lo + hi) / 2 + 1) hi (some ((lo + hi) / 2))
      else .ok (lo, hi, some ((lo + hi) / 2), true) := by
  rw [bisectReduce]
  rw [dif_pos h]
  simp only [pyGet, hu]

theorem bisectLeft_stop (a : List α) (key : α → Int) (xl : Int) (llo lhi : Nat)
    (h : ¬ llo < lhi) : bisectLeft a key xl llo lhi = .ok llo := by
  rw [bisectLeft]
  exact dif_neg h

theorem bisectLeft_step (a : List α) (key : α → Int) (xl : Int) (llo lhi : Nat)
    (h : llo < lhi) (u : α) (hu : a.get? ((llo + lhi) / 2) = some u) :
    bisectLeft a key xl llo lhi =
      if key u < xl then bisectLeft a key xl ((llo + lhi) / 2 + 1) lhi
      else bisectLeft a key xl llo ((llo + lhi) / 2) := by
  rw [bisectLeft]
  rw [dif_pos h]
  simp only [pyGet, hu]

theorem bisectRight_stop (a : List α) (key : α → Int) (xr : Int)
    (rlo rhi : Nat) (h : ¬ rlo < rhi) :
    bisectRight a key xr rlo rhi = .ok rlo := by
  rw [bisectRight]
  exact dif_neg h

theorem bisectRight_step (a : List α) (key : α → Int) (xr : Int)
    (rlo rhi : Nat) (h : rlo < rhi) (u : α)
    (hu : a.get? ((rlo + rhi) / 2) = some u) :
    bisectRight a key xr rlo rhi =
      if xr ≤ key u then bisectRight a key xr rlo ((rlo + rhi) / 2)
      else bisectRight a key xr ((rlo + rhi) / 2 + 1) rhi := by
  rw [bisectRight]
  rw [dif_pos h]
  simp only [pyGet, hu]

/-! ### Correctness of the two lower-bound loops on a sorted slice -/

theorem bisectLeft_spec (a : List α) (key : α → Int) (xl : Int) (LO HI : Nat)
    (hs : SortedByKey a key LO HI) (hHIlen : HI ≤ a.length) :
    ∀ n llo lhi, lhi - llo ≤ n → LO ≤ llo → llo ≤ lhi → lhi ≤ HI →
      ∃ res, bisectLeft a key xl llo lhi = .ok res ∧ llo ≤ res ∧ res ≤ lhi ∧
        AllKey a key (fun v => v < xl) llo res ∧
        AllKey a key (fun v => xl ≤ v) res lhi := by
  intro n
  induction n with
  | zero =>
    intro llo lhi hn hLO hll hHI
    exact ⟨llo, bisectLeft_stop a key xl llo lhi (by omega), le_refl _, by omega,
      AllKey_of_ge a key _ _ _ (le_refl _), AllKey_of_ge a key _ _ _ (by omega)⟩
  | succ n ih =>
    intro llo lhi hn hLO hll hHI
    by_cases h : llo < lhi
    · set mid := (llo + lhi) / 2 with hmid
      have hm1 : llo ≤ mid := by omega
      have hm2 : mid < lhi := by omega
      have hmlen : mid < a.length := by omega
      obtain ⟨u, hu⟩ : ∃ u, a.get? mid = some u :=
        ⟨a.get ⟨mid, hmlen⟩, List.get?_eq_get hmlen⟩
      rw [bisectLeft_step a key xl llo lhi h u hu]
      by_cases hlt : key u < xl
      · rw [if_pos hlt]
        obtain ⟨res, heq, h1, h2, h3, h4⟩ :=
          ih (mid + 1) lhi (by omega) (by omega) (by omega) hHI
        refine ⟨res, heq, by omega, h2, ?_, h4⟩
        intro t v ht1 ht2 hv
        by_cases htm : t ≤ mid
        · have : key v ≤ key u := hs t mid v u (by omega) htm (by omega) hv hu
          omega
        · exact h3 t v (by omega) ht2 hv
      · rw [if_neg hlt]
        obtain ⟨res, heq, h1, h2, h3, h4⟩ :=
          ih llo mid (by omega) hLO (by omega) (by omega)
        refine ⟨res, heq, h1, by omega, h3, ?_⟩
        intro t v ht1 ht2 hv
        by_cases htm : t < mid
        · exact h4 t v ht1 htm hv
        · have : key u ≤ key v := hs mid t u v (by omega) (by omega) (by omega) hu hv
          omega
    · exact ⟨llo, bisectLeft_stop a key xl llo lhi h, le_refl _, by omega,
        AllKey_of_ge a key _ _ _ (le_refl _), AllKey_of_ge a key _ _ _ (by omega)⟩

theorem bisectRight_spec (a : List α) (key : α → Int) (xr : Int) (LO HI : Nat)
    (hs : SortedByKey a key LO HI) (hHIlen : HI ≤ a.length) :
    ∀ n rlo rhi, rhi - rlo ≤ n → LO ≤ rlo → rlo ≤ rhi → rhi ≤ HI →
      ∃ res, bisectRight a key xr rlo rhi = .ok res ∧ rlo ≤ res ∧ res ≤ rhi ∧
        AllKey a key (fun v => v < xr) rlo res ∧
        AllKey a key (fun v => xr ≤ v) res rhi := by
  intro n
  induction n with
  | zero =>
    intro rlo rhi hn hLO hrr hHI
    exact ⟨rlo, bisectRight_stop a key xr rlo rhi (by omega), le_refl _, by omega,
      AllKey_of_ge a key _ _ _ (le_refl _), AllKey_of_ge a key _ _ _ (by omega)⟩
  | succ n ih =>
    intro rlo rhi hn hLO hrr hHI
    by_cases h : rlo < rhi
    · set mid := (rlo + rhi) / 2 with hmid
      have hm1 : rlo ≤ mid := by omega
      have hm2 : mid < rhi := by omega
      have hmlen : mid < a.length := by omega
      obtain ⟨u, hu⟩ : ∃ u, a.get? mid = some u :=
        ⟨a.get ⟨mid, hmlen⟩, List.get?_eq_get hmlen⟩
      rw [bisectRight_step a key xr rlo rhi h u hu]
      by_cases hge : xr ≤ key u
      · rw [if_pos hge]
        obtain ⟨res, heq, h1, h2, h3, h4⟩ :=
          ih rlo mid (by omega) hLO (by omega) (by omega)
        refine ⟨res, heq, h1, by omega, h3, ?_⟩
        intro t v ht1 ht2 hv
        by_cases htm : t < mid
        · exact h4 t v ht1 htm hv
        · have : key u ≤ key v := hs mid t u v (by omega) (by omega) (by omega) hu hv
          omega
      · rw [if_neg hge]
        obtain ⟨res, heq, h1, h2, h3, h4⟩ :=
          ih (mid + 1) rhi (by omega) (by omega) (by omega) hHI
        refine ⟨res, heq, by omega, h2, ?_, h4⟩
        intro t v ht1 ht2 hv
        by_cases htm : t ≤ mid
        · have : key v ≤ key u := hs t mid v u (by omega) htm (by omega) hv hu
          omega
        · exact h3 t v (by omega) ht2 hv
    · exact ⟨rlo, bisectRight_stop a key xr rlo rhi h, le_refl _, by omega,
        AllKey_of_ge a key _ _ _ (le_refl _), AllKey_of_ge a key _ _ _ (by omega)⟩

/-! ### Correctness of the range-narrowing loop -/

theorem bisectReduce_spec (a : List α) (key : α → Int) (xl xr : Int)
    (LO HI : Nat) (hs : SortedByKey a key LO HI) (hHIlen : HI ≤ a.length)
    (hxlr : xl ≤ xr) :
    ∀ n lo hi lastMid, hi - lo ≤ n → LO ≤ lo → lo ≤ hi → hi ≤ HI →
      (lo = hi → MidOk a key xr lastMid lo) →
      ∃ lo' hi' m b, bisectReduce a key xl xr lo hi lastMid = .ok (lo', hi', m, b) ∧
        lo ≤ lo' ∧ lo' ≤ hi' ∧ hi' ≤ hi ∧
        AllKey a key (fun v => v < xl) lo lo' ∧
        AllKey a key (fun v => xr ≤ v) hi' hi ∧
        (b = true → ∃ mm, m = some mm ∧ lo' ≤ mm ∧ mm < hi' ∧
          ∀ u, a.get? mm = some u → xl ≤ key u ∧ key u < xr) ∧
        (b = false → lo' = hi' ∧ MidOk a key xr m lo') := by
  intro n
  induction n with
  | zero =>
    intro lo hi lastMid hn hLO hlh hHI hmid
    refine ⟨lo, hi, lastMid, false,
      bisectReduce_stop a key xl xr lo hi lastMid (by omega), le_refl _, hlh,
      le_refl _, AllKey_of_ge a key _ _ _ (le_refl _),
      AllKey_of_ge a key _ _ _ (le_refl _), ?_, ?_⟩
    · intro hb
      exact absurd hb (by simp)
    · intro _
      exact ⟨by omega, hmid (by omega)⟩
  | succ n ih =>
    intro lo hi lastMid hn hLO hlh hHI hmid
    by_cases h : lo < hi
    · set mid := (lo + hi) / 2 with hmiddef
      have hm1 : lo ≤ mid := by omega
      have hm2 : mid < hi := by omega
      have hmlen : mid < a.length := by omega
      obtain ⟨u, hu⟩ : ∃ u, a.get? mid = some u :=
        ⟨a.get ⟨mid, hmlen⟩, List.get?_eq_get hmlen⟩
      rw [bisectReduce_step a key xl xr lo hi lastMid h u hu]
      by_cases hc1 : xl ≤ key u ∧ xr ≤ key u
      · rw [if_pos hc1]
        obtain ⟨lo', hi', m, b, heq, p1, p2, p3, p4, p5, p6, p7⟩ :=
          ih lo mid (some mid) (by omega) hLO (by omega) (by omega)
            (fun hlomid => ⟨mid, rfl, Or.inl hlomid.symm⟩)
        refine ⟨lo', hi', m, b, heq, p1, p2, by omega, p4, ?_, p6, p7⟩
        refine AllKey_append a key _ hi' mid hi p5 ?_
        intro t v ht1 ht2 hv
        have : key u ≤ key v := hs mid t u v (by omega) ht1 (by omega) hu hv
        omega
      · rw [if_neg hc1]
        by_cases hc2 : key u < xl ∧ key u < xr
        · rw [if_pos hc2]
          obtain ⟨lo', hi', m, b, heq, p1, p2, p3, p4, p5, p6, p7⟩ :=
            ih (mid + 1) hi (some mid) (by omega) (by omega) (by omega) hHI
              (fun hmidhi => ⟨mid, rfl, Or.inr ⟨rfl, fun u' hu' => by
                rw [hu] at hu'
                cases hu'
                exact hc2.2⟩⟩)
          refine ⟨lo', hi', m, b, heq, by omega, p2, p3, ?_, p5, p6, p7⟩
          refine AllKey_append a key _ lo (mid + 1) lo' ?_ p4
          intro t v ht1 ht2 hv
          have : key v ≤ key u := hs t mid v u (by omega) (by omega) (by omega) hv hu
          omega
        · rw [if_neg hc2]
          have hbreak : xl ≤ key u ∧ key u < xr := by
            rcases not_and_or.mp hc1 with h1 | h1 <;>
              rcases not_and_or.mp hc2 with h2 | h2 <;>
              constructor <;> omega
          refine ⟨lo, hi, some mid, true, rfl, le_refl _, hlh, le_refl _,
            AllKey_of_ge a key _ _ _ (le_refl _),
            AllKey_of_ge a key _ _ _ (le_refl _), ?_, ?_⟩
          · intro _
            refine ⟨mid, rfl, hm1, hm2, fun u' hu' => ?_⟩
            rw [hu] at hu'
            cases hu'
            exact hbreak
          · intro hb
            exact absurd hb (by simp)
    · refine ⟨lo, hi, lastMid, false,
        bisectReduce_stop a key xl xr lo hi lastMid h, le_refl _, hlh,
        le_refl _, AllKey_of_ge a key _ _ _ (le_refl _),
        AllKey_of_ge a key _ _ _ (le_refl _), ?_, ?_⟩
      · intro hb
        exact absurd hb (by simp)
      · intro _
        exact ⟨by omega, hmid (by omega)⟩

/-! ### Correctness of `interval_offsets` -/

/-- Omitting `hi` (Python `hi=None`) is the same call with `hi = len(a)`. -/
theorem interval_offsets_none_eq (a : List α) (key : α → Int) (xl xr lo : Int) :
    interval_offsets a xl xr lo none key =
      interval_offsets a xl xr lo (some (a.length : Int)) key := rfl

/-- Main correctness of the double-ended bisection on a slice `a[lo:hi]`
sorted ascending by `key`: it returns boundary indices `lo ≤ l ≤ r ≤ hi`
with keys `< xl` on `[lo, l)`, in `[xl, xr)` on `[l, r)`, and `≥ xr` on
`[r, hi)`. -/
theorem interval_offsets_spec (a : List α) (key : α → Int) (xl xr : Int)
    (lo hi : Nat) (hlh : lo ≤ hi) (hlen : hi ≤ a.length) (hx : xl ≤ xr)
    (hs : SortedByKey a key lo hi) :
    ∃ l r, interval_offsets a xl xr (lo : Int) (some (hi : Int)) key = .ok (l, r) ∧
      lo ≤ l ∧ l ≤ r ∧ r ≤ hi ∧
      AllKey a key (fun v => v < xl) lo l ∧
      AllKey a key (fun v => xl ≤ v ∧ v < xr) l r ∧
      AllKey a key (fun v => xr ≤ v) r hi := by
  have h0 : ¬ ((lo : Int) < 0) := by omega
  have h1 : ¬ (xl > xr) := by omega
  by_cases hcase : lo = hi
  · subst hcase
    refine ⟨lo, lo, ?_, le_refl _, le_refl _, le_refl _,
      AllKey_of_ge a key _ _ _ (le_refl _), AllKey_of_ge a key _ _ _ (le_refl _),
      AllKey_of_ge a key _ _ _ (le_refl _)⟩
    simp only [interval_offsets, Option.getD_some]
    rw [if_neg h0, if_neg h1]
    simp
  · have hlt : lo < hi := by omega
    simp only [interval_offsets, Option.getD_some]
    rw [if_neg h0, if_neg h1, if_neg (by exact_mod_cast hcase),
      if_pos (by exact_mod_cast hlt)]
    simp only [Int.toNat_natCast]
    obtain ⟨lo', hi', m, b, heq, p1, p2, p3, p4, p5, p6, p7⟩ :=
      bisectReduce_spec a key xl xr lo hi hs hlen hx (hi - lo) lo hi none
        (le_refl _) (le_refl _) hlh (le_refl _) (fun hbad => absurd hbad (by omega))
    cases b with
    | true =>
      obtain ⟨mm, hm, hmm1, hmm2, hmmkey⟩ := p6 rfl
      have hmmlen : mm < a.length := by omega
      obtain ⟨umm, humm⟩ : ∃ u, a.get? mm = some u :=
        ⟨a.get ⟨mm, hmmlen⟩, List.get?_eq_get hmmlen⟩
      have hummk : xl ≤ key umm ∧ key umm < xr := hmmkey umm humm
      obtain ⟨llo, heqL, q1, q2, q3, q4⟩ :=
        bisectLeft_spec a key xl lo hi hs hlen (mm - lo') lo' mm (le_refl _)
          (by omega) hmm1 (by omega)
      obtain ⟨rlo, heqR, r1, r2, r3, r4⟩ :=
        bisectRight_spec a key xr lo hi hs hlen (hi' - mm) mm hi' (le_refl _)
          (by omega) (by omega) p3
      rw [hm] at heq
      simp only [heq, heqL, heqR]
      refine ⟨llo, rlo, rfl, by omega, by omega, by omega, ?_, ?_, ?_⟩
      · exact AllKey_append a key _ lo lo' llo p4 q3
      · intro t v ht1 ht2 hv
        by_cases htm : t < mm
        · refine ⟨q4 t v ht1 htm hv, ?_⟩
          have : key v ≤ key umm := hs t mm v umm (by omega) (by omega) (by omega) hv humm
          omega
        · refine ⟨?_, r3 t v (by omega) ht2 hv⟩
          have : key umm ≤ key v := hs mm t umm v (by omega) (by omega) (by omega) humm hv
          omega
      · refine AllKey_append a key _ rlo hi' hi r4 ?_
        intro t v ht1 ht2 hv
        exact p5 t v ht1 ht2 hv
    | false =>
      obtain ⟨hlh', hmok⟩ := p7 rfl
      obtain ⟨mm, hm, hcases⟩ := hmok
      rw [hm] at heq
      rcases hcases with hmm | ⟨hmm, hkey⟩
      · have hL : bisectLeft a key xl lo' mm = .ok lo' :=
          bisectLeft_stop a key xl lo' mm (by omega)
        have hR : bisectRight a key xr mm hi' = .ok mm :=
          bisectRight_stop a key xr mm hi' (by omega)
        simp only [heq, hL, hR]
        refine ⟨lo', mm, rfl, p1, by omega, by omega, ?_, ?_, ?_⟩
        · exact p4
        · exact AllKey_of_ge a key _ _ _ (by omega)
        · intro t v ht1 ht2 hv
          exact p5 t v (by omega) ht2 hv
      · have hmmlen : mm < a.length := by omega
        obtain ⟨u, hu⟩ : ∃ u, a.get? mm = some u :=
          ⟨a.get ⟨mm, hmmlen⟩, List.get?_eq_get hmmlen⟩
        have hmdiv : (mm + hi') / 2 = mm := by omega
        have hu' : a.get? ((mm + hi') / 2) = some u := by rw [hmdiv]; exact hu
        have hL : bisectLeft a key xl lo' mm = .ok lo' :=
          bisectLeft_stop a key xl lo' mm (by omega)
        have hR : bisectRight a key xr mm hi' = .ok (mm + 1) := by
          rw [bisectRight_step a key xr mm hi' (by omega) u hu']
          rw [if_neg (by have := hkey u hu; omega)]
          rw [hmdiv, bisectRight_stop a key xr (mm + 1) hi' (by omega)]
        simp only [heq, hL, hR]
        refine ⟨lo', mm + 1, rfl, p1, by omega, by omega, ?_, ?_, ?_⟩
        · exact p4
        · exact AllKey_of_ge a key _ _ _ (by omega)
        · intro t v ht1 ht2 hv
          exact p5 t v (by omega) ht2 hv

/-! ### Error-freedom of the loops on in-range bounds (no sortedness needed) -/

theorem bisectReduce_ok (a : List α) (key : α → Int) (xl xr : Int) :
    ∀ n lo hi lastMid, hi - lo ≤ n → hi ≤ a.length → lo ≤ hi →
      (∀ mm, lastMid = some mm → mm ≤ hi) →
      ∃ lo' hi' m b, bisectReduce a key xl xr lo hi lastMid = .ok (lo', hi', m, b) ∧
        lo ≤ lo' ∧ lo' ≤ hi' ∧ hi' ≤ hi ∧
        (∀ mm, m = some mm → mm ≤ hi') ∧
        (m = none → lastMid = none ∧ hi ≤ lo) := by
  intro n
  induction n with
  | zero =>
    intro lo hi lastMid hn hlen hlh hmid
    exact ⟨lo, hi, lastMid, false,
      bisectReduce_stop a key xl xr lo hi lastMid (by omega), le_refl _, hlh,
      le_refl _, fun mm h => hmid mm h, fun h => ⟨h, by omega⟩⟩
  | succ n ih =>
    intro lo hi lastMid hn hlen hlh hmid
    by_cases h : lo < hi
    · set mid := (lo + hi) / 2 with hmiddef
      have hm1 : lo ≤ mid := by omega
      have hm2 : mid < hi := by omega
      have hmlen : mid < a.length := by omega
      obtain ⟨u, hu⟩ : ∃ u, a.get? mid = some u :=
        ⟨a.get ⟨mid, hmlen⟩, List.get?_eq_get hmlen⟩
      rw [bisectReduce_step a key xl xr lo hi lastMid h u hu]
      by_cases hc1 : xl ≤ key u ∧ xr ≤ key u
      · rw [if_pos hc1]
        obtain ⟨lo', hi', m, b, heq, p1, p2, p3, p4, p5⟩ :=
          ih lo mid (some mid) (by omega) (by omega) (by omega)
            (fun mm hmm => by cases hmm; exact le_refl _)
        refine ⟨lo', hi', m, b, heq, p1, p2, by omega, p4, ?_⟩
        intro hnone
        exact absurd (p5 hnone).1 (by simp)
      · rw [if_neg hc1]
        by_cases hc2 : key u < xl ∧ key u < xr
        · rw [if_pos hc2]
          obtain ⟨lo', hi', m, b, heq, p1, p2, p3, p4, p5⟩ :=
            ih (mid + 1) hi (some mid) (by omega) hlen (by omega)
              (fun mm hmm => by cases hmm; omega)
          refine ⟨lo', hi', m, b, heq, by omega, p2, p3, p4, ?_⟩
          intro hnone
          exact absurd (p5 hnone).1 (by simp)
        · rw [if_neg hc2]
          exact ⟨lo, hi, some mid, true, rfl, le_refl _, hlh, le_refl _,
            fun mm hmm => by cases hmm; omega, fun hnone => by cases hnone⟩
    · exact ⟨lo, hi, lastMid, false,
        bisectReduce_stop a key xl xr lo hi lastMid h, le_refl _, hlh,
        le_refl _, fun mm hmm => hmid mm hmm, fun hnone => ⟨hnone, by omega⟩⟩

theorem bisectLeft_ok (a : List α) (key : α → Int) (xl : Int) :
    ∀ n llo lhi, lhi - llo ≤ n → lhi ≤ a.length →
      ∃ res, bisectLeft a key xl llo lhi = .ok res := by
  intro n
  induction n with
  | zero =>
    intro llo lhi hn hlen
    exact ⟨llo, bisectLeft_stop a key xl llo lhi (by omega)⟩
  | succ n ih =>
    intro llo lhi hn hlen
    by_cases h : llo < lhi
    · have hmlen : (llo + lhi) / 2 < a.length := by omega
      obtain ⟨u, hu⟩ : ∃ u, a.get? ((llo + lhi) / 2) = some u :=
        ⟨a.get ⟨_, hmlen⟩, List.get?_eq_get hmlen⟩
      rw [bisectLeft_step a key xl llo lhi h u hu]
      by_cases hlt : key u < xl
      · rw [if_pos hlt]
        exact ih ((llo + lhi) / 2 + 1) lhi (by omega) hlen
      · rw [if_neg hlt]
        exact ih llo ((llo + lhi) / 2) (by omega) (by omega)
    · exact ⟨llo, bisectLeft_stop a key xl llo lhi h⟩

theorem bisectRight_ok (a : List α) (key : α → Int) (xr : Int) :
    ∀ n rlo rhi, rhi - rlo ≤ n → rhi ≤ a.length →
      ∃ res, bisectRight a key xr rlo rhi = .ok res := by
  intro n
  induction n with
  | zero =>
    intro rlo rhi hn hlen
    exact ⟨rlo, bisectRight_stop a key xr rlo rhi (by omega)⟩
  | succ n ih =>
    intro rlo rhi hn hlen
    by_cases h : rlo < rhi
    · have hmlen : (rlo + rhi) / 2 < a.length := by omega
      obtain ⟨u, hu⟩ : ∃ u, a.get? ((rlo + rhi) / 2) = some u :=
        ⟨a.get ⟨_, hmlen⟩, List.get?_eq_get hmlen⟩
      rw [bisectRight_step a key xr rlo rhi h u hu]
      by_cases hge : xr ≤ key u
      · rw [if_pos hge]
        exact ih rlo ((rlo + rhi) / 2) (by omega) (by omega)
      · rw [if_neg hge]
        exact ih ((rlo + rhi) / 2 + 1) rhi (by omega) hlen
    · exact ⟨rlo, bisectRight_stop a key xr rlo rhi h⟩

/-- `interval_offsets` never raises when the bounds are a valid index range
and `xl ≤ xr`; sortedness is irrelevant to error-freedom. -/
theorem interval_offsets_ok (a : List α) (key : α → Int) (xl xr : Int)
    (lo hi : Nat) (hlh : lo ≤ hi) (hlen : hi ≤ a.length) (hx : xl ≤ xr) :
    ∃ p, interval_offsets a xl xr (lo : Int) (some (hi : Int)) key = .ok p := by
  have h0 : ¬ ((lo : Int) < 0) := by omega
  have h1 : ¬ (xl > xr) := by omega
  by_cases hcase : lo = hi
  · subst hcase
    refine ⟨(lo, lo), ?_⟩
    simp only [interval_offsets, Option.getD_some]
    rw [if_neg h0, if_neg h1]
    simp
  · have hlt : lo < hi := by omega
    simp only [interval_offsets, Option.getD_some]
    rw [if_neg h0, if_neg h1, if_neg (by exact_mod_cast hcase),
      if_pos (by exact_mod_cast hlt)]
    simp only [Int.toNat_natCast]
    obtain ⟨lo', hi', m, b, heq, p1, p2, p3, p4, p5⟩ :=
      bisectReduce_ok a key xl xr (hi - lo) lo hi none (le_refl _) hlen hlh
        (fun mm hmm => by cases hmm)
    obtain ⟨mm, hm⟩ : ∃ mm, m = some mm := by
      cases m with
      | none => exact absurd (p5 rfl).2 (by omega)
      | some mm => exact ⟨mm, rfl⟩
    rw [hm] at heq
    have hmmhi : mm ≤ hi' := p4 mm hm
    obtain ⟨llo, hL⟩ := bisectLeft_ok a key xl (mm - lo') lo' mm (le_refl _) (by omega)
    obtain ⟨rlo, hR⟩ := bisectRight_ok a key xr (hi' - mm) mm hi' (le_refl _) (by omega)
    refine ⟨(llo, rlo), ?_⟩
    simp only [heq, hL, hR]

/-! ### The loops only ever raise `IndexError` -/

theorem bisectReduce_ok_or_index (a : List α) (key : α → Int) (xl xr : Int) :
    ∀ n lo hi lastMid, hi - lo ≤ n →
      (∃ res, bisectReduce a key xl xr lo hi lastMid = .ok res) ∨
        bisectReduce a key xl xr lo hi lastMid = .error .indexError := by
  intro n
  induction n with
  | zero =>
    intro lo hi lastMid hn
    exact Or.inl ⟨_, bisectReduce_stop a key xl xr lo hi lastMid (by omega)⟩
  | succ n ih =>
    intro lo hi lastMid hn
    by_cases h : lo < hi
    · rw [bisectReduce]
      rw [dif_pos h]
      cases hu : a.get? ((lo + hi) / 2) with
      | none => exact Or.inr (by simp only [pyGet, hu])
      | some u =>
        simp only [pyGet, hu]
        by_cases hc1 : xl ≤ key u ∧ xr ≤ key u
        · rw [if_pos hc1]
          exact ih lo ((lo + hi) / 2) (some ((lo + hi) / 2)) (by omega)
        · rw [if_neg hc1]
          by_cases hc2 : key u < xl ∧ key u < xr
          · rw [if_pos hc2]
            exact ih ((lo + hi) / 2 + 1) hi (some ((lo + hi) / 2)) (by omega)
          · rw [if_neg hc2]
            exact Or.inl ⟨_, rfl⟩
    · exact Or.inl ⟨_, bisectReduce_stop a key xl xr lo hi lastMid h⟩

theorem bisectLeft_ok_or_index (a : List α) (key : α → Int) (xl : Int) :
    ∀ n llo lhi, lhi - llo ≤ n →
      (∃ res, bisectLeft a key xl llo lhi = .ok res) ∨
        bisectLeft a key xl llo lhi = .error .indexError := by
  intro n
  induction n with
  | zero =>
    intro llo lhi hn
    exact Or.inl ⟨_, bisectLeft_stop a key xl llo lhi (by omega)⟩
  | succ n ih =>
    intro llo lhi hn
    by_cases h : llo < lhi
    · rw [bisectLeft]
      rw [dif_pos h]
      cases hu : a.get? ((llo + lhi) / 2) with
      | none => exact Or.inr (by simp only [pyGet, hu])
      | some u =>
        simp only [pyGet, hu]
        by_cases hlt : key u < xl
        · rw [if_pos hlt]
          exact ih ((llo + lhi) / 2 + 1) lhi (by omega)
        · rw [if_neg hlt]
          exact ih llo ((llo + lhi) / 2) (by omega)
    · exact Or.inl ⟨_, bisectLeft_stop a key xl llo lhi h⟩

theorem bisectRight_ok_or_index (a : List α) (key : α → Int) (xr : Int) :
    ∀ n rlo rhi, rhi - rlo ≤ n →
      (∃ res, bisectRight a key xr rlo rhi = .ok res) ∨
        bisectRight a key xr rlo rhi = .error .indexError := by
  intro n
  induction n with
  | zero =>
    intro rlo rhi hn
    exact Or.inl ⟨_, bisectRight_stop a key xr rlo rhi (by omega)⟩
  | succ n ih =>
    intro rlo rhi hn
    by_cases h : rlo < rhi
    · rw [bisectRight]
      rw [dif_pos h]
      cases hu : a.get? ((rlo + rhi) / 2) with
      | none => exact Or.inr (by simp only [pyGet, hu])
      | some u =>
        simp only [pyGet, hu]
        by_cases hge : xr ≤ key u
        · rw [if_pos hge]
          exact ih rlo ((rlo + rhi) / 2) (by omega)
        · rw [if_neg hge]
          exact ih ((rlo + rhi) / 2 + 1) rhi (by omega)
    · exact Or.inl ⟨_, bisectRight_stop a key xr rlo rhi h⟩

/-- Once past its two argument checks, `interval_offsets` can only succeed or
raise `IndexError` / `UnboundLocalError` — never another `ValueError`. -/
theorem interval_offsets_no_late_valueError (a : List α) (key : α → Int)
    (xl xr lo : Int) (hi : Option Int) (h0 : ¬ lo < 0) (h1 : ¬ xl > xr) :
    ∀ msg, interval_offsets a xl xr lo hi key ≠ .error (.valueError msg) := by
  intro msg
  simp only [interval_offsets]
  rw [if_neg h0, if_neg h1]
  by_cases hcase : lo = hi.getD (a.length : Int)
  · rw [if_pos hcase]
    simp
  · rw [if_neg hcase]
    by_cases hlt : lo < hi.getD (a.length : Int)
    · rw [if_pos hlt]
      rcases bisectReduce_ok_or_index a key xl xr
          (hi.getD (a.length : Int)).toNat lo.toNat (hi.getD (a.length : Int)).toNat
          none (by omega) with ⟨⟨lo', hi', m, b⟩, hred⟩ | hred
      · cases m with
        | none => simp [hred]
        | some mm =>
          rcases bisectLeft_ok_or_index a key xl mm lo' mm (by omega) with
            ⟨llo, hL⟩ | hL
          · rcases bisectRight_ok_or_index a key xr hi' mm hi' (by omega) with
              ⟨rlo, hR⟩ | hR
            · simp [hred, hL, hR]
            · simp [hred, hL, hR]
          · simp [hred, hL]
      · simp [hred]
    · rw [if_neg hlt]
      simp

/-! ### From `Pairwise` sortedness to `SortedByKey` -/

theorem sortedByKey_of_pairwise (a : List α) (key : α → Int) (lo hi : Nat)
    (h : List.Pairwise (fun x y => key x ≤ key y) ((a.take hi).drop lo)) :
    SortedByKey a key lo hi := by
  intro i j u v h1 h2 h3 hu hv
  rcases eq_or_lt_of_le h2 with heq | hij
  · subst heq
    rw [hu] at hv
    cases hv
    exact le_refl _
  · have hsu : ((a.take hi).drop lo).get? (i - lo) = some u := by
      rw [List.get?_drop]
      have : lo + (i - lo) = i := by omega
      rw [this, List.get?_take (by omega)]
      exact hu
    have hsv : ((a.take hi).drop lo).get? (j - lo) = some v := by
      rw [List.get?_drop]
      have : lo + (j - lo) = j := by omega
      rw [this, List.get?_take h3]
      exact hv
    obtain ⟨hiu, hgu⟩ := List.get?_eq_some.mp hsu
    obtain ⟨hjv, hgv⟩ := List.get?_eq_some.mp hsv
    have := List.pairwise_iff_get.mp h ⟨i - lo, hiu⟩ ⟨j - lo, hjv⟩ (by
      simp only [Fin.mk_lt_mk]
      omega)
    rw [hgu, hgv] at this
    exact this

theorem sortedByKey_of_pairwise_full (a : List α) (key : α → Int)
    (h : List.Pairwise (fun x y => key x ≤ key y) a) :
    SortedByKey a key 0 a.length :=
  sortedByKey_of_pairwise a key 0 a.length
    (by rwa [List.take_length, List.drop_zero])

/-! ### Facts about Python slices -/

theorem pySliceIdx_natCast (n i : Nat) : pySliceIdx n (i : Int) = min i n := by
  simp only [pySliceIdx]
  rw [if_neg (by omega)]
  simp

/-- For non-negative endpoints a Python slice is a drop-then-take. -/
theorem pySlice_nat (l : List β) (i j : Nat) :
    pySlice l (i : Int) (j : Int) = (l.drop i).take (j - i) := by
  simp only [pySlice, pySliceIdx_natCast]
  have htake : l.take (min j l.length) = l.take j :=
    List.take_eq_take.mpr (by omega)
  rw [htake]
  by_cases hi : i ≤ l.length
  · rw [min_eq_left hi, List.drop_take]
  · rw [min_eq_right (by omega)]
    rw [List.drop_eq_nil_of_le (by rw [List.length_take]; omega),
      List.drop_eq_nil_of_le (by omega), List.take_nil]

/-- Any element of the slice `l[i : i + (j - i)]` sits at an index in `[i, j)`
of `l`. -/
theorem mem_slice_index (l : List β) (i j : Nat) (x : β)
    (hx : x ∈ (l.drop i).take (j - i)) :
    ∃ t, i ≤ t ∧ t < j ∧ l.get? t = some x := by
  obtain ⟨n, hn⟩ := List.mem_iff_get?.mp hx
  have hlen : n < ((l.drop i).take (j - i)).length := (List.get?_eq_some.mp hn).1
  rw [List.length_take, List.length_drop] at hlen
  have hnj : n < j - i := by omega
  rw [List.get?_take hnj, List.get?_drop] at hn
  exact ⟨i + n, by omega, by omega, hn⟩

/-- A contiguous sub-range whose complement fails a predicate and whose
interior satisfies it is exactly the filtered list. -/
theorem slice_eq_filter (a : List β) (p : β → Bool) (l r : Nat)
    (hlr : l ≤ r) (hr : r ≤ a.length)
    (h1 : ∀ t x, t < l → a.get? t = some x → p x = false)
    (h2 : ∀ t x, l ≤ t → t < r → a.get? t = some x → p x = true)
    (h3 : ∀ t x, r ≤ t → a.get? t = some x → p x = false) :
    (a.drop l).take (r - l) = a.filter p := by
  have hmid : (a.drop l).take (r - l) ++ a.drop r = a.drop l := by
    have h4 : (a.drop l).drop (r - l) = a.drop r := by
      rw [List.drop_drop]
      congr 1
      omega
    rw [← h4, List.take_append_drop]
  have hdecomp : a.take l ++ ((a.drop l).take (r - l) ++ a.drop r) = a := by
    rw [hmid, List.take_append_drop]
  have hf1 : a.filter p = (a.take l).filter p ++
      (((a.drop l).take (r - l)).filter p ++ (a.drop r).filter p) := by
    conv_lhs => rw [← hdecomp]
    rw [List.filter_append, List.filter_append]
  have he1 : (a.take l).filter p = [] := by
    rw [List.filter_eq_nil_iff]
    intro x hx
    obtain ⟨n, hn⟩ := List.mem_iff_get?.mp hx
    have hlen : n < (a.take l).length := (List.get?_eq_some.mp hn).1
    rw [List.length_take] at hlen
    rw [List.get?_take (by omega)] at hn
    simp [h1 n x (by omega) hn]
  have he2 : ((a.drop l).take (r - l)).filter p = (a.drop l).take (r - l) := by
    rw [List.filter_eq_self]
    intro x hx
    obtain ⟨t, ht1, ht2, ht3⟩ := mem_slice_index a l r x hx
    exact h2 t x ht1 ht2 ht3
  have he3 : (a.drop r).filter p = [] := by
    rw [List.filter_eq_nil_iff]
    intro x hx
    obtain ⟨n, hn⟩ := List.mem_iff_get?.mp hx
    rw [List.get?_drop] at hn
    simp [h3 (r + n) x (by omega) hn]
  rw [hf1, he1, he2, he3]
  simp

/-! ### Correctness of `TextChunk.build` -/

/-- `interval_offsets` with all-default bounds never raises when `xl ≤ xr`,
whatever the order of the sequence. -/
theorem interval_offsets_default_ok (a : List α) (key : α → Int) (xl xr : Int)
    (hx : xl ≤ xr) : ∃ p, interval_offsets a xl xr 0 none key = .ok p := by
  obtain ⟨p, hp⟩ :=
    interval_offsets_ok a key xl xr 0 a.length (Nat.zero_le _) (le_refl _) hx
  refine ⟨p, ?_⟩
  rw [interval_offsets_none_eq]
  simpa using hp

/-- Full behaviour of `TextChunk.build` on a document whose occurrence list is
sorted by offset and a well-ordered range: the produced chunk slices tokens
and postags verbatim and its entity list is exactly the in-range occurrences,
in order, re-based to the chunk-local coordinates. -/
theorem TextChunk_build_spec (doc : IEDocument) (toff tend : Nat) (text : String)
    (hsorted : List.Pairwise
      (fun o1 o2 : EntityOccurrence => o1.offset ≤ o2.offset) doc.entities)
    (hto : toff ≤ tend) :
    ∃ c, TextChunk.build doc (toff : Int) (tend : Int) text = .ok c ∧
      c.document = doc ∧
      c.text = text ∧
      c.offset = (toff : Int) ∧
      c.tokens = (doc.tokens.drop toff).take (tend - toff) ∧
      c.postags = (doc.postags.drop toff).take (tend - toff) ∧
      c.entities = (doc.entities.filter
          (fun o => decide ((toff : Int) ≤ o.offset ∧ o.offset < (tend : Int)))).map
        (projectOccurrence (toff : Int)) := by
  have hs : SortedByKey doc.entities (fun o => o.offset) 0 doc.entities.length :=
    sortedByKey_of_pairwise_full doc.entities (fun o => o.offset) hsorted
  obtain ⟨l, r, heq, q1, q2, q3, q4, q5, q6⟩ :=
    interval_offsets_spec doc.entities (fun o => o.offset) (toff : Int) (tend : Int)
      0 doc.entities.length (Nat.zero_le _) (le_refl _) (by exact_mod_cast hto) hs
  have heq' : interval_offsets doc.entities (toff : Int) (tend : Int) 0 none
      (fun o => o.offset) = .ok (l, r) := by
    rw [interval_offsets_none_eq]
    simpa using heq
  have hentities : pySlice doc.entities (l : Int) (r : Int) =
      doc.entities.filter
        (fun o => decide ((toff : Int) ≤ o.offset ∧ o.offset < (tend : Int))) := by
    rw [pySlice_nat]
    refine slice_eq_filter doc.entities _ l r q2 q3 ?_ ?_ ?_
    · intro t x ht hx
      rw [decide_eq_false_iff_not]
      have := q4 t x (Nat.zero_le _) ht hx
      simp only at this
      omega
    · intro t x ht1 ht2 hx
      rw [decide_eq_true_eq]
      have := q5 t x ht1 ht2 hx
      simp only at this
      omega
    · intro t x ht hx
      rw [decide_eq_false_iff_not]
      have htlen : t < doc.entities.length := (List.get?_eq_some.mp hx).1
      have := q6 t x ht htlen hx
      simp only at this
      omega
  refine ⟨{ document := doc
            text := text
            offset := (toff : Int)
            tokens := pySlice doc.tokens (toff : Int) (tend : Int)
            postags := pySlice doc.postags (toff : Int) (tend : Int)
            entities := (pySlice doc.entities (l : Int) (r : Int)).map
              (projectOccurrence (toff : Int)) }, ?_, rfl, rfl, rfl,
    pySlice_nat doc.tokens toff tend, pySlice_nat doc.postags toff tend, ?_⟩
  · simp only [TextChunk.build, heq']
  · simp only
    rw [hentities]

/-! ### The Python-2 order and the `sorted` / `set` checks -/

theorem pyLe_trans (a b c : PyObj) (h1 : pyLe a b = true) (h2 : pyLe b c = true) :
    pyLe a c = true := by
  cases a <;> cases b <;> cases c <;> simp_all [pyLe] <;> first
    | omega
    | exact le_trans (by assumption) (by assumption)

theorem pyLe_total (a b : PyObj) : (pyLe a b || pyLe b a) = true := by
  cases a <;> cases b <;> simp [pyLe] <;> first
    | omega
    | exact le_total _ _

/-- The source's `sorted(result) != result` check fails exactly on lists that
are not already sorted for the Python-2 order. -/
theorem mergeSort_pyLe_eq_iff (l : List PyObj) :
    l.mergeSort pyLe = l ↔ List.Pairwise (fun a b => pyLe a b = true) l := by
  constructor
  · intro h
    rw [← h]
    exact List.sorted_mergeSort
      (fun a b c => pyLe_trans a b c) (fun a b => pyLe_total a b) l
  · exact List.mergeSort_of_sorted

/-- The source's `len(set(result)) < len(result)` check fires exactly on lists
with duplicates. -/
theorem dedup_length_lt_iff (l : List PyObj) :
    l.dedup.length < l.length ↔ ¬ l.Nodup := by
  constructor
  · intro h hnd
    rw [List.dedup_eq_self.mpr hnd] at h
    omega
  · intro hnd
    have hsub := List.dedup_sublist l
    have hle := hsub.length_le
    rcases eq_or_lt_of_le hle with heq | hlt
    · exact absurd (by rw [← hsub.eq_of_length heq]; exact l.nodup_dedup) hnd
    · exact hlt

/-! ### `storeResult` -/

theorem storeResult_spec (doc : IEDocument) (s : PreProcessSteps) (f : DocField)
    (result : List PyObj) (now : Nat)
    (hf : preprocess_fields_mapping s = some f) :
    ∃ d', storeResult doc s result now = (.ok d', d') ∧
      getattrField d' f = result ∧
      d'.preprocess_metadata =
        (fun k => if k = s.name then some now else doc.preprocess_metadata k) := by
  simp only [storeResult, hf]
  refine ⟨_, rfl, ?_, ?_⟩
  · cases f <;> rfl
  · cases f <;> rfl

/-! ### The tagging stage -/

theorem set_tagging_walk (doc : IEDocument) (result : List PyObj) (now : Nat) :
    (result.length ≠ doc.tokens.length →
      set_preprocess_result doc (some PreProcessSteps.tagging) result now =
        (.error (.valueError "Tagging result must have same cardinality than tokens"), doc)) ∧
    (result.length = doc.tokens.length →
      ∃ d', set_preprocess_result doc (some PreProcessSteps.tagging) result now =
          (.ok d', d') ∧
        d'.postags = result ∧
        d'.preprocess_metadata =
          (fun k => if k = "tagging" then some now else doc.preprocess_metadata k)) := by
  constructor
  · intro hlen
    simp only [set_preprocess_result]
    rw [if_neg (by simp), if_pos (by trivial), if_pos hlen]
  · intro hlen
    obtain ⟨d', hd', hfield, hmeta⟩ :=
      storeResult_spec doc PreProcessSteps.tagging DocField.postags result now rfl
    refine ⟨d', ?_, hfield, hmeta⟩
    simp only [set_preprocess_result]
    rw [if_neg (by simp), if_pos (by trivial), if_neg (by omega)]
    exact hd'

/-! ### The segmentation stage -/

theorem seg_success (doc : IEDocument) (result : List PyObj) (now : Nat)
    (hne : result ≠ []) (hok : ¬ SegViolation doc result) :
    ∃ d', set_preprocess_result doc (some PreProcessSteps.segmentation) result now =
        (.ok d', d') ∧
      d'.sentences = result ∧
      d'.preprocess_metadata =
        (fun k => if k = "segmentation" then some now else doc.preprocess_metadata k) := by
  simp only [SegViolation, not_or, not_exists, not_not] at hok
  obtain ⟨h1, h2, h3, h4, h5⟩ := hok
  have hfil : result.filter (fun x => ! x.isInt) = [] := by
    rw [List.filter_eq_nil_iff]
    intro x hx
    have hxf := h1 x
    simp [hx] at hxf
    simp [hxf]
  have hms : result.mergeSort pyLe = result := (mergeSort_pyLe_eq_iff result).mpr h2
  have hdp : ¬ (result.dedup.length < result.length) := by
    intro hlt
    exact (dedup_length_lt_iff result).mp hlt h3
  cases result with
  | nil => exact absurd rfl hne
  | cons h0 rest =>
    have h0eq : h0 = PyObj.int 0 := by
      simpa using h4
    have hlast : (h0 :: rest).getLast (List.cons_ne_nil h0 rest) =
        PyObj.int (doc.tokens.length : Int) := by
      rw [List.getLast?_eq_getLast (h0 :: rest) (List.cons_ne_nil h0 rest)] at h5
      simpa using h5
    obtain ⟨d', hd', hfield, hmeta⟩ :=
      storeResult_spec doc PreProcessSteps.segmentation DocField.sentences
        (h0 :: rest) now rfl
    refine ⟨d', ?_, hfield, hmeta⟩
    simp only [set_preprocess_result]
    rw [if_pos (by trivial), if_neg (fun hc => hc hfil), if_neg (fun hc => hc hms),
      if_neg hdp, if_neg (by push_neg; exact ⟨h0eq, hlast⟩)]
    exact hd'

theorem seg_error (doc : IEDocument) (result : List PyObj) (now : Nat)
    (hne : result ≠ []) (hvio : SegViolation doc result) :
    ∃ msg, (set_preprocess_result doc (some PreProcessSteps.segmentation) result now).1 =
      .error (.valueError msg) := by
  cases result with
  | nil => exact absurd rfl hne
  | cons h0 rest =>
    simp only [set_preprocess_result]
    rw [if_pos (by trivial)]
    by_cases hfil : (h0 :: rest).filter (fun x => ! x.isInt) = []
    · have h1 : ∀ x ∈ h0 :: rest, x.isInt = true := by
        intro x hx
        by_contra hxf
        have hmem : x ∈ (h0 :: rest).filter (fun x => ! x.isInt) :=
          List.mem_filter.mpr ⟨hx, by simp [Bool.not_eq_true] at hxf; simp [hxf]⟩
        rw [hfil] at hmem
        cases hmem
      rw [if_neg (fun hc => hc hfil)]
      by_cases hms : (h0 :: rest).mergeSort pyLe = h0 :: rest
      · have h2 : List.Pairwise (fun a b => pyLe a b = true) (h0 :: rest) :=
          (mergeSort_pyLe_eq_iff (h0 :: rest)).mp hms
        rw [if_neg (fun hc => hc hms)]
        by_cases hnd : (h0 :: rest).Nodup
        · have hdp : ¬ ((h0 :: rest).dedup.length < (h0 :: rest).length) := by
            intro hlt
            exact (dedup_length_lt_iff (h0 :: rest)).mp hlt hnd
          rw [if_neg hdp]
          have hvio4 : h0 ≠ PyObj.int 0 ∨
              (h0 :: rest).getLast (List.cons_ne_nil h0 rest) ≠
                PyObj.int (doc.tokens.length : Int) := by
            rcases hvio with hv | hv | hv | hv | hv
            · obtain ⟨x, hx, hxf⟩ := hv
              exact absurd (h1 x hx) (by simp [hxf])
            · exact absurd h2 hv
            · exact absurd hnd hv
            · exact Or.inl (by simpa using hv)
            · refine Or.inr ?_
              rw [List.getLast?_eq_getLast (h0 :: rest) (List.cons_ne_nil h0 rest)] at hv
              simpa using hv
          rw [if_pos hvio4]
          exact ⟨_, rfl⟩
        · have hdp : (h0 :: rest).dedup.length < (h0 :: rest).length :=
            (dedup_length_lt_iff (h0 :: rest)).mpr hnd
          rw [if_pos hdp]
          exact ⟨_, rfl⟩
      · rw [if_pos hms]
        exact ⟨_, rfl⟩
    · rw [if_pos hfil]
      exact ⟨_, rfl⟩

/-! ### The nerc stage, `get_preprocess_result`, and failure atomicity -/

theorem storeResult_snd (doc : IEDocument) (s : PreProcessSteps)
    (result : List PyObj) (now : Nat) :
    (storeResult doc s result now).2 = doc ∨
      ∃ d', storeResult doc s result now = (.ok d', d') := by
  cases hs : preprocess_fields_mapping s with
  | none => exact Or.inl (by simp [storeResult, hs])
  | some f =>
    simp only [storeResult, hs]
    exact Or.inr ⟨_, rfl⟩

/-- Every branch of `set_preprocess_result` either raises with the document
untouched or succeeds returning the mutated document. -/
theorem set_preprocess_snd (doc : IEDocument) (step : Option PreProcessSteps)
    (result : List PyObj) (now : Nat) :
    (set_preprocess_result doc step result now).2 = doc ∨
      ∃ d', set_preprocess_result doc step result now = (.ok d', d') := by
  cases step with
  | none => exact Or.inl rfl
  | some s =>
    simp only [set_preprocess_result]
    repeat' split
    all_goals first
      | exact Or.inl rfl
      | apply storeResult_snd

/-- Claim C9 (amended): `get_preprocess_result` returns the stored field's
current value when the stage's completion marker is present and the stage has
a field mapping, and the explicit absent marker (`None`) when the marker is
absent; but for the `nerc` stage with its marker present (a state only the
external store can produce, since `set_preprocess_result` can never record
`nerc`) it raises `KeyError` because `preprocess_fields_mapping` has no
`nerc` entry — so "never raises" holds for every stage except that one case. -/
theorem get_preprocess_result_cases (doc : IEDocument) (step : PreProcessSteps) :
    (was_preprocess_done doc step = false →
      get_preprocess_result doc step = .ok none) ∧
    (was_preprocess_done doc step = true → step ≠ PreProcessSteps.nerc →
      ∃ f, preprocess_fields_mapping step = some f ∧
        get_preprocess_result doc step = .ok (some (getattrField doc f))) ∧
    (was_preprocess_done doc step = true → step = PreProcessSteps.nerc →
      get_preprocess_result doc step = .error .keyError) := by
  refine ⟨?_, ?_, ?_⟩
  · intro h
    simp [get_preprocess_result, h]
  · intro h hn
    cases step with
    | tokenization => exact ⟨.tokens, rfl, by simp [get_preprocess_result, h,
        preprocess_fields_mapping]⟩
    | segmentation => exact ⟨.sentences, rfl, by simp [get_preprocess_result, h,
        preprocess_fields_mapping]⟩
    | tagging => exact ⟨.postags, rfl, by simp [get_preprocess_result, h,
        preprocess_fields_mapping]⟩
    | nerc => exact absurd rfl hn
  · intro h hn
    subst hn
    simp [get_preprocess_result, h, preprocess_fields_mapping]

/-! ### The claims -/

/-- Claim C1: for every sequence `a`, bounds `lo ≥ 0` and `hi = len(a)` or a
caller-supplied `hi` (a valid index range `lo ≤ hi ≤ len(a)`), values
`xl ≤ xr`, and key function `k` such that `a[lo:hi]` is sorted ascending by
`k`, `interval_offsets(a, xl, xr, lo, hi, key=k)` returns a pair `(l, r)`
with `lo ≤ l ≤ r ≤ hi` such that every element of `a[lo:l]` has key `< xl`,
every element of `a[l:r]` has key in `[xl, xr)`, and every element of
`a[r:hi]` has key `≥ xr`. -/
theorem interval_offsets_postcondition (a : List α) (key : α → Int)
    (xl xr : Int) (lo hi : Nat) (hlo : lo ≤ hi) (hhi : hi ≤ a.length)
    (hx : xl ≤ xr)
    (hs : List.Pairwise (fun x y => key x ≤ key y) ((a.take hi).drop lo)) :
    ∃ l r, interval_offsets a xl xr (lo : Int) (some (hi : Int)) key = .ok (l, r) ∧
      lo ≤ l ∧ l ≤ r ∧ r ≤ hi ∧
      (∀ t u, lo ≤ t → t < l → a.get? t = some u → key u < xl) ∧
      (∀ t u, l ≤ t → t < r → a.get? t = some u → xl ≤ key u ∧ key u < xr) ∧
      (∀ t u, r ≤ t → t < hi → a.get? t = some u → xr ≤ key u) := by
  obtain ⟨l, r, heq, p1, p2, p3, p4, p5, p6⟩ :=
    interval_offsets_spec a key xl xr lo hi hlo hhi hx
      (sortedByKey_of_pairwise a key lo hi hs)
  exact ⟨l, r, heq, p1, p2, p3, p4, p5, p6⟩

/-- Witness for Claim C1 on the concrete sorted list `[1, 3, 5, 7]` with the
query interval `[2, 6)`. -/
theorem interval_offsets_postcondition_witness :
    ∃ l r, interval_offsets ([1, 3, 5, 7] : List Int) 2 6 ((0 : Nat) : Int)
        (some ((4 : Nat) : Int)) (fun x => x) = .ok (l, r) ∧
      (0 : Nat) ≤ l ∧ l ≤ r ∧ r ≤ 4 ∧
      (∀ t u, 0 ≤ t → t < l → ([1, 3, 5, 7] : List Int).get? t = some u → u < 2) ∧
      (∀ t u, l ≤ t → t < r → ([1, 3, 5, 7] : List Int).get? t = some u →
        2 ≤ u ∧ u < 6) ∧
      (∀ t u, r ≤ t → t < 4 → ([1, 3, 5, 7] : List Int).get? t = some u → 6 ≤ u) :=
  interval_offsets_postcondition [1, 3, 5, 7] (fun x => x) 2 6 0 4 (by decide)
    (by decide) (by decide) (by decide)

/-- Claim C2: for a document whose entity-occurrence list is sorted ascending
by offset and a valid range `0 ≤ token_offset ≤ token_offset_end ≤
len(tokens)`, `TextChunk.build` returns a chunk whose tokens and postags are
the corresponding slices, whose entity list is exactly the subset of
occurrences with offset in `[token_offset, token_offset_end)` in source
order, each projected by `projectOccurrence` (offset re-based by
`- token_offset`, hence in `[0, token_offset_end - token_offset)`, and the
alias carried through unchanged); the embedding is a pure function of the
document, so the document is not mutated (the chunk also keeps the original
document value in its `document` field). -/
theorem build_projects_range (doc : IEDocument) (toff tend : Nat)
    (text : String)
    (hsorted : List.Pairwise
      (fun o1 o2 : EntityOccurrence => o1.offset ≤ o2.offset) doc.entities)
    (htokens : tend ≤ doc.tokens.length) (hto : toff ≤ tend) :
    ∃ c, TextChunk.build doc (toff : Int) (tend : Int) text = .ok c ∧
      c.document = doc ∧
      c.tokens = (doc.tokens.drop toff).take (tend - toff) ∧
      c.postags = (doc.postags.drop toff).take (tend - toff) ∧
      c.entities = (doc.entities.filter
          (fun o => decide ((toff : Int) ≤ o.offset ∧ o.offset < (tend : Int)))).map
        (projectOccurrence (toff : Int)) ∧
      (∀ e ∈ c.entities, 0 ≤ e.offset ∧ e.offset < (tend : Int) - (toff : Int)) := by
  obtain ⟨c, hc, hdoc, htext, hoff, htok, hpos, hent⟩ :=
    TextChunk_build_spec doc toff tend text hsorted hto
  refine ⟨c, hc, hdoc, htok, hpos, hent, ?_⟩
  intro e he
  rw [hent] at he
  obtain ⟨o, ho, hoe⟩ := List.mem_map.mp he
  obtain ⟨homem, hop⟩ := List.mem_filter.mp ho
  rw [decide_eq_true_eq] at hop
  subst hoe
  simp only [projectOccurrence]
  omega

/-- Witness for Claim C2 on the four-token document with occurrences at
offsets 0, 1, 3 and the chunk range `[1, 3)`. -/
theorem build_projects_range_witness :
    ∃ c, TextChunk.build docChunk ((1 : Nat) : Int) ((3 : Nat) : Int) "bc" = .ok c ∧
      c.document = docChunk ∧
      c.tokens = (docChunk.tokens.drop 1).take (3 - 1) ∧
      c.postags = (docChunk.postags.drop 1).take (3 - 1) ∧
      c.entities = (docChunk.entities.filter
          (fun o => decide (((1 : Nat) : Int) ≤ o.offset ∧ o.offset < ((3 : Nat) : Int)))).map
        (projectOccurrence ((1 : Nat) : Int)) ∧
      (∀ e ∈ c.entities, 0 ≤ e.offset ∧ e.offset < ((3 : Nat) : Int) - ((1 : Nat) : Int)) :=
  build_projects_range docChunk 1 3 "bc" (by decide) (by decide) (by decide)

/-- Counterexample to Claim C3: `TextChunk.build` performs no bounds check
against `len(tokens)`: on a one-token document the range `[0, 2)` lies
outside `[0, 1]`, yet a chunk is produced (Python slices clamp silently and
`interval_offsets` is called with `lo=0, hi=len(entities)`). -/
theorem build_out_of_range_succeeds :
    ∃ c, TextChunk.build docOneToken 0 2 "t" = .ok c := ⟨_, rfl⟩

/-- Claim C3 (amended): `TextChunk.build` fails — with the InvalidRange
`ValueError` propagated from `interval_offsets` — exactly when
`token_offset > token_offset_end`, and no chunk is produced in that case;
for `token_offset ≤ token_offset_end` a chunk is always produced, even when
the range lies outside `[0, len(tokens)]` (slices are clamped). -/
theorem build_error_iff_inverted_range (doc : IEDocument) (toff tend : Int)
    (text : String) :
    (toff > tend → TextChunk.build doc toff tend text =
      .error (.valueError "This function requires xl <= xr ")) ∧
    (toff ≤ tend → ∃ c, TextChunk.build doc toff tend text = .ok c) := by
  constructor
  · intro h
    have hint : interval_offsets doc.entities toff tend 0 none
        (fun occ => occ.offset) =
        .error (.valueError "This function requires xl <= xr ") := by
      simp only [interval_offsets]
      rw [if_neg (by omega), if_pos h]
    simp only [TextChunk.build, hint]
  · intro h
    obtain ⟨⟨l, r⟩, hp⟩ :=
      interval_offsets_default_ok doc.entities (fun occ => occ.offset) toff tend h
    refine ⟨{ document := doc
              text := text
              offset := toff
              tokens := pySlice doc.tokens toff tend
              postags := pySlice doc.postags toff tend
              entities := (pySlice doc.entities (l : Int) (r : Int)).map
                (projectOccurrence toff) }, ?_⟩
    simp only [TextChunk.build, hp]

/-- Witness for Claim C3 (amended): an inverted range raises, a too-long
range still produces a chunk. -/
theorem build_error_iff_inverted_range_witness :
    TextChunk.build docOneToken 3 1 "t" =
      .error (.valueError "This function requires xl <= xr ") ∧
    ∃ c, TextChunk.build docOneToken 0 5 "t" = .ok c :=
  ⟨(build_error_iff_inverted_range docOneToken 3 1 "t").1 (by decide),
   (build_error_iff_inverted_range docOneToken 0 5 "t").2 (by decide)⟩

/-- Counterexample to Claim C4: the empty segmentation result passes the
int/sorted/duplicate checks and then `result[0]` raises `IndexError` — not a
`ValidationError` — so the claimed "ValidationError iff a rule is violated,
else stored" fails at `result = []` under either reading of the endpoint
rule. -/
theorem set_segmentation_empty_raises_indexError :
    (set_preprocess_result docThreeTokens (some PreProcessSteps.segmentation)
      [] 0).1 = .error .indexError := by
  simp [set_preprocess_result, List.mergeSort_nil]

/-- Claim C4 (amended): for a nonempty result, `set_preprocess_result` for
the segmentation stage raises a `ValidationError` (a `ValueError`) iff one
of the four rules is violated — some element is not an integer, the sequence
is not sorted ascending, it has duplicates, or its first element is not 0 or
its last is not the token-sequence length — and when all four rules hold the
result is stored in the sentence-boundary field and a segmentation
completion timestamp is recorded; the empty result instead raises
`IndexError`. -/
theorem set_segmentation_validates (doc : IEDocument) (result : List PyObj)
    (now : Nat) (hne : result ≠ []) :
    ((∃ msg, (set_preprocess_result doc (some PreProcessSteps.segmentation)
        result now).1 = .error (.valueError msg)) ↔ SegViolation doc result) ∧
    (¬ SegViolation doc result →
      ∃ d', set_preprocess_result doc (some PreProcessSteps.segmentation)
          result now = (.ok d', d') ∧
        d'.sentences = result ∧
        d'.preprocess_metadata "segmentation" = some now) := by
  constructor
  · constructor
    · rintro ⟨msg, hmsg⟩
      by_contra hvio
      obtain ⟨d', hd', _, _⟩ := seg_success doc result now hne hvio
      rw [hd'] at hmsg
      simp at hmsg
    · intro hvio
      exact seg_error doc result now hne hvio
  · intro hok
    obtain ⟨d', hd', hsent, hmeta⟩ := seg_success doc result now hne hok
    refine ⟨d', hd', hsent, ?_⟩
    rw [hmeta]
    simp

/-- Witness for Claim C4 on the three-token document and the valid
segmentation `[0, 3]`. -/
theorem set_segmentation_validates_witness :
    ((∃ msg, (set_preprocess_result docThreeTokens (some PreProcessSteps.segmentation)
        [PyObj.int 0, PyObj.int 3] 7).1 = .error (.valueError msg)) ↔
      SegViolation docThreeTokens [PyObj.int 0, PyObj.int 3]) ∧
    (¬ SegViolation docThreeTokens [PyObj.int 0, PyObj.int 3] →
      ∃ d', set_preprocess_result docThreeTokens (some PreProcessSteps.segmentation)
          [PyObj.int 0, PyObj.int 3] 7 = (.ok d', d') ∧
        d'.sentences = [PyObj.int 0, PyObj.int 3] ∧
        d'.preprocess_metadata "segmentation" = some 7) :=
  set_segmentation_validates docThreeTokens [PyObj.int 0, PyObj.int 3] 7
    (by decide)

/-- Claim C5 is contradicted by the code (a bug): `set_preprocess_result`
with the `nerc` stage never succeeds — `preprocess_fields_mapping` has no
entry for `nerc`, so `self.preprocess_fields_mapping[step]` raises
`KeyError` before any completion timestamp is recorded, for every document
and result. -/
theorem set_nerc_raises_keyError (doc : IEDocument) (result : List PyObj)
    (now : Nat) :
    set_preprocess_result doc (some PreProcessSteps.nerc) result now =
      (.error .keyError, doc) := by
  simp only [set_preprocess_result]
  rw [if_neg (by decide), if_neg (by decide)]
  rfl

/-- Claim C6: `interval_offsets` returns an empty result range on degenerate
inputs — `lo = hi` returns `(lo, hi)` immediately as a non-error result
(after the two argument checks, so given `lo ≥ 0` and `xl ≤ xr`);
`find_bounds([], xl, xr) = (0, 0)` for valid `xl ≤ xr`; and on any sorted
sequence `find_bounds(S, x, x)` returns `l = r`. -/
theorem interval_offsets_empty_range :
    (∀ (α : Type) (a : List α) (key : α → Int) (xl xr lo : Int),
      0 ≤ lo → xl ≤ xr →
      interval_offsets a xl xr lo (some lo) key = .ok (lo.toNat, lo.toNat)) ∧
    (∀ xl xr : Int, xl ≤ xr → find_bounds [] xl xr = .ok (0, 0)) ∧
    (∀ (S : List Int) (x : Int),
      List.Pairwise (fun u v : Int => u ≤ v) S →
      ∃ l, find_bounds S x x = .ok (l, l)) := by
  refine ⟨?_, ?_, ?_⟩
  · intro α a key xl xr lo h0 hx
    simp only [interval_offsets, Option.getD_some]
    rw [if_neg (by omega), if_neg (by omega), if_pos trivial]
  · intro xl xr hx
    simp only [find_bounds, interval_offsets, Option.getD_none]
    rw [if_neg (by omega), if_neg (by omega)]
    simp
  · intro S x hs
    have hsk : SortedByKey S (fun v => v) 0 S.length :=
      sortedByKey_of_pairwise_full S (fun v => v) hs
    obtain ⟨l, r, heq, p1, p2, p3, p4, p5, p6⟩ :=
      interval_offsets_spec S (fun v => v) x x 0 S.length (Nat.zero_le _)
        (le_refl _) (le_refl _) hsk
    have hlr : l = r := by
      by_contra hne
      have hlt : l < r := by omega
      have hlen : l < S.length := by omega
      obtain ⟨u, hu⟩ : ∃ u, S.get? l = some u :=
        ⟨S.get ⟨l, hlen⟩, List.get?_eq_get hlen⟩
      have := p5 l u (le_refl _) hlt hu
      simp only at this
      omega
    subst hlr
    refine ⟨l, ?_⟩
    simp only [find_bounds]
    rw [interval_offsets_none_eq]
    simpa using heq

/-- Witness for Claim C6 at concrete inputs. -/
theorem interval_offsets_empty_range_witness :
    interval_offsets ([(5 : Int)]) 1 2 3 (some 3) (fun x => x) =
      .ok ((3 : Int).toNat, (3 : Int).toNat) ∧
    find_bounds [] 1 2 = .ok (0, 0) ∧
    ∃ l, find_bounds [3, 3, 5] 4 4 = .ok (l, l) :=
  ⟨interval_offsets_empty_range.1 Int [(5 : Int)] (fun x => x) 1 2 3
      (by decide) (by decide),
   interval_offsets_empty_range.2.1 1 2 (by decide),
   interval_offsets_empty_range.2.2 [3, 3, 5] 4 (by decide)⟩

/-- Counterexample to Claim C7: with `lo = 1 ≥ 0` and `xl = 0 ≤ 0 = xr` on
the empty sequence (so `hi` defaults to `0 < lo`), the first loop body never
runs and the later read of `mid` raises `UnboundLocalError` — so
"for lo ≥ 0 and xl ≤ xr it never raises" is false as stated. -/
theorem interval_offsets_unbound_mid_cex :
    interval_offsets ([] : List Int) 0 0 1 none (fun x => x) =
      .error .unboundLocalError := rfl

/-- Claim C7 (amended): `interval_offsets` raises the InvalidIndex
`ValueError` iff `lo < 0`, and (given `lo ≥ 0`) the InvalidRange
`ValueError` iff `xl > xr`; in both cases no result pair is produced; and it
never raises when additionally the bounds are a valid index range
`lo ≤ hi ≤ len(a)` (without that extra condition the code can still raise
`UnboundLocalError` or `IndexError`). -/
theorem interval_offsets_error_conditions :
    (∀ (α : Type) (a : List α) (key : α → Int) (xl xr lo : Int) (hi : Option Int),
      interval_offsets a xl xr lo hi key =
          .error (.valueError "lo must not be negative") ↔ lo < 0) ∧
    (∀ (α : Type) (a : List α) (key : α → Int) (xl xr lo : Int) (hi : Option Int),
      0 ≤ lo →
      (interval_offsets a xl xr lo hi key =
          .error (.valueError "This function requires xl <= xr ") ↔ xl > xr)) ∧
    (∀ (α : Type) (a : List α) (key : α → Int) (xl xr : Int) (lo hi : Nat),
      lo ≤ hi → hi ≤ a.length → xl ≤ xr →
      ∃ p, interval_offsets a xl xr (lo : Int) (some (hi : Int)) key = .ok p) := by
  refine ⟨?_, ?_, ?_⟩
  · intro α a key xl xr lo hi
    constructor
    · intro heq
      by_contra h0
      by_cases hxr : xl > xr
      · have hother : interval_offsets a xl xr lo hi key =
            .error (.valueError "This function requires xl <= xr ") := by
          simp only [interval_offsets]
          rw [if_neg h0, if_pos hxr]
        rw [hother] at heq
        simp at heq
      · exact interval_offsets_no_late_valueError a key xl xr lo hi h0 hxr _ heq
    · intro hlo
      simp only [interval_offsets]
      rw [if_pos hlo]
  · intro α a key xl xr lo hi h0
    constructor
    · intro heq
      by_contra hxr
      exact interval_offsets_no_late_valueError a key xl xr lo hi
        (by omega) hxr _ heq
    · intro hxr
      simp only [interval_offsets]
      rw [if_neg (by omega), if_pos hxr]
  · intro α a key xl xr lo hi h1 h2 h3
    exact interval_offsets_ok a key xl xr lo hi h1 h2 h3

/-- Witness for Claim C7 (amended) at concrete inputs. -/
theorem interval_offsets_error_conditions_witness :
    (interval_offsets ([] : List Int) 0 0 (-1) none (fun x => x) =
        .error (.valueError "lo must not be negative") ↔ (-1 : Int) < 0) ∧
    (interval_offsets ([] : List Int) 5 2 0 none (fun x => x) =
        .error (.valueError "This function requires xl <= xr ") ↔ (5 : Int) > 2) ∧
    ∃ p, interval_offsets ([10] : List Int) 0 7 ((0 : Nat) : Int)
        (some ((1 : Nat) : Int)) (fun x => x) = .ok p :=
  ⟨interval_offsets_error_conditions.1 Int [] (fun x => x) 0 0 (-1) none,
   interval_offsets_error_conditions.2.1 Int [] (fun x => x) 5 2 0 none (by decide),
   interval_offsets_error_conditions.2.2 Int [10] (fun x => x) 0 7 0 1
     (by decide) (by decide) (by decide)⟩

/-- Claim C8: `set_preprocess_result` for the tagging stage raises the
CardinalityError `ValueError` iff the result's length differs from the
current token-sequence length; when the lengths match the result is stored
in `postags`, a tagging completion timestamp is recorded, and a subsequent
`get_preprocess_result` for tagging returns the stored tag list. -/
theorem set_tagging_validates (doc : IEDocument) (result : List PyObj)
    (now : Nat) :
    (((set_preprocess_result doc (some PreProcessSteps.tagging) result now).1 =
        .error (.valueError "Tagging result must have same cardinality than tokens")) ↔
      result.length ≠ doc.tokens.length) ∧
    (result.length = doc.tokens.length →
      ∃ d', set_preprocess_result doc (some PreProcessSteps.tagging) result now =
          (.ok d', d') ∧
        d'.postags = result ∧
        d'.preprocess_metadata "tagging" = some now ∧
        get_preprocess_result d' PreProcessSteps.tagging = .ok (some result)) := by
  obtain ⟨hfail, hsucc⟩ := set_tagging_walk doc result now
  constructor
  · constructor
    · intro heq
      by_contra hlen
      obtain ⟨d', hd', _, _⟩ := hsucc hlen
      rw [hd'] at heq
      simp at heq
    · intro hlen
      rw [hfail hlen]
  · intro hlen
    obtain ⟨d', hd', hpost, hmeta⟩ := hsucc hlen
    have hdone : was_preprocess_done d' PreProcessSteps.tagging = true := by
      simp [was_preprocess_done, hmeta, PreProcessSteps.name]
    refine ⟨d', hd', hpost, ?_, ?_⟩
    · rw [hmeta]
      simp
    · simp [get_preprocess_result, hdone, preprocess_fields_mapping,
        getattrField, hpost]

/-- Witness for Claim C8 on the three-token document with a three-tag
result. -/
theorem set_tagging_validates_witness :
    (((set_preprocess_result docThreeTokens (some PreProcessSteps.tagging)
        [PyObj.str "A", PyObj.str "B", PyObj.str "C"] 9).1 =
        .error (.valueError "Tagging result must have same cardinality than tokens")) ↔
      ([PyObj.str "A", PyObj.str "B", PyObj.str "C"] : List PyObj).length ≠
        docThreeTokens.tokens.length) ∧
    (([PyObj.str "A", PyObj.str "B", PyObj.str "C"] : List PyObj).length =
        docThreeTokens.tokens.length →
      ∃ d', set_preprocess_result docThreeTokens (some PreProcessSteps.tagging)
          [PyObj.str "A", PyObj.str "B", PyObj.str "C"] 9 = (.ok d', d') ∧
        d'.postags = [PyObj.str "A", PyObj.str "B", PyObj.str "C"] ∧
        d'.preprocess_metadata "tagging" = some 9 ∧
        get_preprocess_result d' PreProcessSteps.tagging =
          .ok (some [PyObj.str "A", PyObj.str "B", PyObj.str "C"])) :=
  set_tagging_validates docThreeTokens
    [PyObj.str "A", PyObj.str "B", PyObj.str "C"] 9

/-- Counterexample to Claim C9: on a document whose completion mapping marks
`nerc` done, `get_preprocess_result` raises `KeyError` instead of returning
a value — so "it never raises" is false as stated. -/
theorem get_nerc_done_raises :
    get_preprocess_result docNercDone PreProcessSteps.nerc =
      .error .keyError := rfl

/-- Witness for Claim C9 (amended) on a never-run stage and on a completed
stage with a field mapping. -/
theorem get_preprocess_result_cases_witness :
    (was_preprocess_done docOneToken PreProcessSteps.tagging = false →
      get_preprocess_result docOneToken PreProcessSteps.tagging = .ok none) ∧
    (was_preprocess_done docOneToken PreProcessSteps.tagging = true →
      PreProcessSteps.tagging ≠ PreProcessSteps.nerc →
      ∃ f, preprocess_fields_mapping PreProcessSteps.tagging = some f ∧
        get_preprocess_result docOneToken PreProcessSteps.tagging =
          .ok (some (getattrField docOneToken f))) ∧
    (was_preprocess_done docOneToken PreProcessSteps.tagging = true →
      PreProcessSteps.tagging = PreProcessSteps.nerc →
      get_preprocess_result docOneToken PreProcessSteps.tagging =
        .error .keyError) :=
  get_preprocess_result_cases docOneToken PreProcessSteps.tagging

/-- Claim C10: `set_preprocess_result` is atomic on failure — whenever the
call raises (invalid stage argument, a failed segmentation or tagging
validation rule, the empty-result `IndexError`, or the `nerc` `KeyError`),
the document state at the end of the call is exactly the input document: no
field is replaced and no completion timestamp is added, because every check
precedes the first mutation. -/
theorem set_preprocess_result_atomic (doc : IEDocument)
    (step : Option PreProcessSteps) (result : List PyObj) (now : Nat)
    (e : PyErr)
    (h : (set_preprocess_result doc step result now).1 = .error e) :
    (set_preprocess_result doc step result now).2 = doc := by
  rcases set_preprocess_snd doc step result now with h2 | ⟨d', hd'⟩
  · exact h2
  · rw [hd'] at h
    simp at h

/-- Witness for Claim C10: an invalid stage argument raises and leaves the
document unchanged. -/
theorem set_preprocess_result_atomic_witness :
    (set_preprocess_result docOneToken none [] 0).1 =
      .error PyErr.invalidPreprocessSteps ∧
    (set_preprocess_result docOneToken none [] 0).2 = docOneToken :=
  ⟨rfl, set_preprocess_result_atomic docOneToken none [] 0
    PyErr.invalidPreprocessSteps rfl⟩

end IepySpec
